import Mathlib

set_option linter.unusedVariables false

/-!
# Verification of the mcp-desktop-visual core

Shallow embedding of the Change Detector (`capture.py`) and the Visual
State Cache (`cache.py`, `models.py`) of the repository, together with
proofs and refutations of the frozen specification claims.

Conventions of the embedding:
* Python `int` coordinates are modelled as `Int` (they may go negative,
  e.g. when a rectangle is expanded leftwards by the merge distance).
* Python floats that are only compared and max-ed (diff scores,
  similarity ratios) are modelled as `ℚ`.
* A Python `dict` (insertion-ordered; assignment to an existing key
  keeps its position, deletion preserves the order of the rest) is
  modelled as an association list `List (String × α)` with operations
  `dinsert` / `derase` / `dget` mirroring those semantics.
* `datetime` timestamps are modelled as an abstract `Nat` tick supplied
  by the caller (the code calls `datetime.now()`; the tick is an input
  of the model).
-/

/-- `models.py` `BoundingBox`: a rectangular region, integer fields. -/
structure BoundingBox where
  x : Int
  y : Int
  width : Int
  height : Int
deriving DecidableEq, Repr

namespace BoundingBox

/-- `BoundingBox.x2`: right edge. -/
def x2 (b : BoundingBox) : Int := b.x + b.width

/-- `BoundingBox.y2`: bottom edge. -/
def y2 (b : BoundingBox) : Int := b.y + b.height

/-- `BoundingBox.area`. -/
def area (b : BoundingBox) : Int := b.width * b.height

/-- `BoundingBox.contains`: `self.x <= x <= self.x2 and self.y <= y <= self.y2`. -/
def contains (b : BoundingBox) (px py : Int) : Bool :=
  b.x ≤ px && px ≤ b.x2 && b.y ≤ py && py ≤ b.y2

/-- `BoundingBox.intersects`:
`not (self.x2 < other.x or other.x2 < self.x or self.y2 < other.y or other.y2 < self.y)`. -/
def intersects (b other : BoundingBox) : Bool :=
  !(b.x2 < other.x || other.x2 < b.x || b.y2 < other.y || other.y2 < b.y)

/-- `BoundingBox.intersection`: `None` when the boxes do not intersect. -/
def intersection (b other : BoundingBox) : Option BoundingBox :=
  if b.intersects other then
    let x := max b.x other.x
    let y := max b.y other.y
    let x2 := min b.x2 other.x2
    let y2 := min b.y2 other.y2
    some ⟨x, y, x2 - x, y2 - y⟩
  else
    none

/-- `BoundingBox.union`: smallest enclosing box. -/
def union (b other : BoundingBox) : BoundingBox :=
  let x := min b.x other.x
  let y := min b.y other.y
  let x2 := max b.x2 other.x2
  let y2 := max b.y2 other.y2
  ⟨x, y, x2 - x, y2 - y⟩

end BoundingBox

/-- `models.py` `ElementType`. -/
inductive ElementType where
  | button | text | input | checkbox | radio | link | icon | image
  | window | menu | menuItem | tab | listItem | dropdown | scrollbar
  | toolbar | unknown
deriving DecidableEq, Repr

/-- The `str` value of each enum member. -/
def ElementType.value : ElementType → String
  | .button => "button"
  | .text => "text"
  | .input => "input"
  | .checkbox => "checkbox"
  | .radio => "radio"
  | .link => "link"
  | .icon => "icon"
  | .image => "image"
  | .window => "window"
  | .menu => "menu"
  | .menuItem => "menu_item"
  | .tab => "tab"
  | .listItem => "list_item"
  | .dropdown => "dropdown"
  | .scrollbar => "scrollbar"
  | .toolbar => "toolbar"
  | .unknown => "unknown"

/-- `models.py` `ChangeType`. -/
inductive ChangeType where
  | added | removed | modified | moved
deriving DecidableEq, Repr

/-- `models.py` `UIElement` (the `metadata` dict and the `detected_at`
wall-clock timestamp are omitted: no embedded operation reads them). -/
structure UIElement where
  id : String
  type : ElementType
  bounds : BoundingBox
  label : Option String := none
  text : Option String := none
  confidence : ℚ := 1
  isEnabled : Bool := true
  isVisible : Bool := true
  isFocused : Bool := false
  parentId : Option String := none
  windowTitle : Option String := none
deriving DecidableEq, Repr

/-- `UIElement._generate_stable_id`, pos_key part: coordinates quantized by
floor division (Python `//`) to the 20-pixel grid. -/
def posKey (bounds : BoundingBox) : String :=
  toString (bounds.x.fdiv 20) ++ "_" ++ toString (bounds.y.fdiv 20) ++ "_" ++
  toString (bounds.width.fdiv 20) ++ "_" ++ toString (bounds.height.fdiv 20)

/-- `UIElement._generate_stable_id`. The code hashes
`f"{type.value}:{pos_key}"` with `hashlib.md5` and keeps the first 8 hex
digits; the external hash is a parameter `md5hex8` of the model (every
claim about the id holds for an arbitrary hash function). The `label` and
`text` arguments are accepted and ignored, as in the source. -/
def generate_stable_id (md5hex8 : String → String) (type : ElementType)
    (bounds : BoundingBox) (label : Option String := none)
    (text : Option String := none) : String :=
  "elem_" ++ md5hex8 (type.value ++ ":" ++ posKey bounds)

/-- `models.py` `WindowInfo`. -/
structure WindowInfo where
  handle : Int
  title : String
  bounds : BoundingBox
  className : String := ""
  processName : String := ""
  processId : Int := 0
  isActive : Bool := false
  isVisible : Bool := true
  isMinimized : Bool := false
  isMaximized : Bool := false
deriving DecidableEq, Repr

/-- `capture.py` `DirtyRegion`: bounds plus normalized diff score. -/
structure DirtyRegion where
  bounds : BoundingBox
  diffScore : ℚ
deriving DecidableEq, Repr

/-- `models.py` `ChangedRegion`. -/
structure ChangedRegion where
  bounds : BoundingBox
  changeType : ChangeType
  addedElements : List UIElement := []
  removedElements : List UIElement := []
  modifiedElements : List UIElement := []
deriving DecidableEq, Repr

/-- `models.py` `VisualDiff` (timestamp as an abstract tick). -/
structure VisualDiff where
  timestamp : Nat
  changedRegions : List ChangedRegion := []
  totalAdded : Nat := 0
  totalRemoved : Nat := 0
  totalModified : Nat := 0
deriving DecidableEq, Repr

/-- `models.py` `ScreenState`. -/
structure ScreenState where
  timestamp : Nat
  elements : List UIElement := []
  windows : List WindowInfo := []
  activeWindow : Option String := none
  screenSize : Int × Int := (1920, 1080)
deriving DecidableEq, Repr

/-! ## Python `dict` model

Insertion-ordered association lists. Assignment to an existing key keeps
its position; deletion preserves the order of the remaining entries. -/

/-- `d[k]` lookup (`dict.get`): first (only, keys being unique) match. -/
def dget {κ α : Type} [DecidableEq κ] (d : List (κ × α)) (k : κ) : Option α :=
  (d.find? fun p => decide (p.1 = k)).map (·.2)

/-- `k in d`. -/
def dmem {κ α : Type} [DecidableEq κ] (d : List (κ × α)) (k : κ) : Bool :=
  d.any fun p => decide (p.1 = k)

/-- `d[k] = v`: overwrite in place when the key is present, else append. -/
def dinsert {κ α : Type} [DecidableEq κ] (d : List (κ × α)) (k : κ) (v : α) :
    List (κ × α) :=
  if dmem d k then d.map (fun p => if p.1 = k then (k, v) else p)
  else d ++ [(k, v)]

/-- `del d[k]`: drop the entry; order of the rest is preserved. -/
def derase {κ α : Type} [DecidableEq κ] (d : List (κ × α)) (k : κ) :
    List (κ × α) :=
  d.filter fun p => decide (p.1 ≠ k)

/-- The key list of the dict, in insertion order. -/
def dkeys {κ α : Type} (d : List (κ × α)) : List κ := d.map (·.1)

/-- `config.py` `CacheConfig` (fields the core reads). -/
structure CacheConfig where
  maxElements : Nat := 1000
  maxHistory : Nat := 10
  positionTolerance : Int := 5
deriving DecidableEq, Repr

/-- `cache.py` `VisualStateCache`: the mutable state, made explicit. -/
structure CacheState where
  config : CacheConfig
  elements : List (String × UIElement) := []
  windows : List (Int × WindowInfo) := []
  activeWindow : Option String := none
  screenSize : Int × Int := (1920, 1080)
  lastUpdate : Option Nat := none
  elementsByLabel : List (String × List String) := []
  elementsByType : List (ElementType × List String) := []
  elementsByWindow : List (String × List String) := []
  history : List ScreenState := []
  updatesCount : Nat := 0
  cacheHits : Nat := 0
  cacheMisses : Nat := 0
deriving DecidableEq, Repr

/-- `VisualStateCache.current_state` (`now` models `datetime.now()`,
used only when the cache has never been updated). -/
def currentState (s : CacheState) (now : Nat) : ScreenState :=
  { timestamp := s.lastUpdate.getD now
    elements := s.elements.map (·.2)
    windows := s.windows.map (·.2)
    activeWindow := s.activeWindow
    screenSize := s.screenSize }

/-- `VisualStateCache.clear`. -/
def clear (s : CacheState) : CacheState :=
  { s with
    elements := []
    windows := []
    elementsByLabel := []
    elementsByType := []
    elementsByWindow := []
    history := []
    activeWindow := none
    lastUpdate := none }

/-- Python string truthiness for `Optional[str]`: `None` and `""` are falsy. -/
def optStrTruthy : Option String → Bool
  | none => false
  | some s => decide (s ≠ "")

/-- Python `str.lower()`, modelled character-wise (`Char.toLower`; the
ASCII range is what the claims exercise, and the model only needs the
normalization to be applied consistently, as the source does). -/
def pyLower (s : String) : String := String.mk (s.data.map Char.toLower)

/-- `idx[key].append(eid)` after `idx.setdefault(key, [])`: how
`_add_element` grows a secondary index. -/
def idxAppend {κ : Type} [DecidableEq κ] (idx : List (κ × List String))
    (k : κ) (eid : String) : List (κ × List String) :=
  dinsert idx k (((dget idx k).getD []) ++ [eid])

/-- `try: idx[key].remove(eid) except ValueError: pass`, guarded by
`key in idx`: how `_remove_element` shrinks a secondary index.
`List.erase` drops the first occurrence and is a no-op when absent,
exactly the `try/except` semantics. -/
def idxRemove {κ : Type} [DecidableEq κ] (idx : List (κ × List String))
    (k : κ) (eid : String) : List (κ × List String) :=
  if dmem idx k then dinsert idx k (((dget idx k).getD []).erase eid) else idx

/-- `VisualStateCache._remove_element`. -/
def removeElement (s : CacheState) (eid : String) : CacheState :=
  match dget s.elements eid with
  | none => s
  | some element =>
    { s with
      elementsByLabel :=
        match element.label with
        | some lbl =>
          if lbl ≠ "" then idxRemove s.elementsByLabel (pyLower lbl) eid
          else s.elementsByLabel
        | none => s.elementsByLabel
      elementsByType := idxRemove s.elementsByType element.type eid
      elementsByWindow :=
        match element.windowTitle with
        | some wt =>
          if wt ≠ "" then idxRemove s.elementsByWindow wt eid
          else s.elementsByWindow
        | none => s.elementsByWindow
      elements := derase s.elements eid }

/-- `VisualStateCache._add_element`. When the cache is at (or above)
capacity the first key of the insertion-ordered element dict — the
oldest-inserted element still present — is evicted first. (With an empty
dict at capacity, i.e. `max_elements = 0`, the Python `next(iter(...))`
would raise `StopIteration`; that branch is unreachable whenever
`max_elements ≥ 1`, which every theorem below assumes.) -/
def addElement (s : CacheState) (e : UIElement) : CacheState :=
  let s1 :=
    if s.config.maxElements ≤ s.elements.length then
      match s.elements with
      | [] => s
      | (oldestId, _) :: _ => removeElement s oldestId
    else s
  { s1 with
    elements := dinsert s1.elements e.id e
    elementsByLabel :=
      match e.label with
      | some lbl =>
        if lbl ≠ "" then idxAppend s1.elementsByLabel (pyLower lbl) e.id
        else s1.elementsByLabel
      | none => s1.elementsByLabel
    elementsByType := idxAppend s1.elementsByType e.type e.id
    elementsByWindow :=
      match e.windowTitle with
      | some wt =>
        if wt ≠ "" then idxAppend s1.elementsByWindow wt e.id
        else s1.elementsByWindow
      | none => s1.elementsByWindow }

/-- `deque(maxlen=n).append`: append, dropping the oldest when full. -/
def histAppend (h : List ScreenState) (st : ScreenState) (maxlen : Nat) :
    List ScreenState :=
  let h' := h ++ [st]
  h'.drop (h'.length - maxlen)

/-- `VisualStateCache._element_changed`. -/
def element_changed (tolerance : Int) (old upd : UIElement) : Bool :=
  (decide (tolerance < |old.bounds.x - upd.bounds.x|) ||
   decide (tolerance < |old.bounds.y - upd.bounds.y|) ||
   decide (tolerance < |old.bounds.width - upd.bounds.width|) ||
   decide (tolerance < |old.bounds.height - upd.bounds.height|)) ||
  (old.label != upd.label || old.text != upd.text) ||
  (old.isEnabled != upd.isEnabled || old.isVisible != upd.isVisible ||
   old.isFocused != upd.isFocused)

/-! ## Region merging (`_merge_changed_regions`) -/

/-- The `key=lambda r: (r.bounds.y, r.bounds.x)` comparison (Python tuple
order is lexicographic). -/
def crLe (a b : ChangedRegion) : Bool :=
  decide (a.bounds.y < b.bounds.y) ||
  (decide (a.bounds.y = b.bounds.y) && decide (a.bounds.x ≤ b.bounds.x))

/-- Stable insertion of `a` into an already sorted list: `a` goes before
the first element it compares `le` to, hence before every equal element
already present (which came from later input positions). -/
def insertSorted {α : Type} (le : α → α → Bool) (a : α) : List α → List α
  | [] => [a]
  | b :: bs => if le a b then a :: b :: bs else b :: insertSorted le a bs

/-- Stable sort (models Python's stable `list.sort`: for a total preorder
the output of a stable sort is unique, so insertion sort is a faithful
model of Timsort). -/
def stableSort {α : Type} (le : α → α → Bool) : List α → List α
  | [] => []
  | a :: as => insertSorted le a (stableSort le as)

/-- The sweep of `_merge_changed_regions`: walk the sorted list, unioning
the running region with the next one while their bounds intersect; a
merged region's classification collapses to `modified`. -/
def sweepMerge : ChangedRegion → List ChangedRegion → List ChangedRegion
  | current, [] => [current]
  | current, region :: rest =>
    if current.bounds.intersects region.bounds then
      sweepMerge
        { bounds := current.bounds.union region.bounds
          changeType := ChangeType.modified
          addedElements := current.addedElements ++ region.addedElements
          removedElements := current.removedElements ++ region.removedElements
          modifiedElements := current.modifiedElements ++ region.modifiedElements }
        rest
    else current :: sweepMerge region rest

/-- `VisualStateCache._merge_changed_regions`. -/
def mergeChangedRegions (regions : List ChangedRegion) : List ChangedRegion :=
  if regions.length ≤ 1 then regions
  else
    match stableSort crLe regions with
    | [] => regions
    | r :: rest => sweepMerge r rest

/-! ## Diff computation (`_compute_diff`) and the update operations -/

/-- `{e.id: e for e in elements}`: build the id-keyed dict (on a duplicate
id the later element wins, the key keeping its first position). -/
def dictOfElems (es : List UIElement) : List (String × UIElement) :=
  es.foldl (fun d e => dinsert d e.id e) []

/-- The `added` list of `_compute_diff`: elements of the new state whose id
is not cached. (Python iterates a `set`, whose order is unspecified;
counts and membership are order-independent, modelled here in key order.) -/
def diffAdded (s : CacheState) (newState : ScreenState) : List UIElement :=
  let newElements := dictOfElems newState.elements
  let oldIds := dkeys s.elements
  ((dkeys newElements).filter (fun i => !(oldIds.contains i))).filterMap
    (fun i => dget newElements i)

/-- The `removed` list of `_compute_diff`: cached elements whose id is not
in the new state. -/
def diffRemoved (s : CacheState) (newState : ScreenState) : List UIElement :=
  let newIds := dkeys (dictOfElems newState.elements)
  ((dkeys s.elements).filter (fun i => !(newIds.contains i))).filterMap
    (fun i => dget s.elements i)

/-- The `modified` list of `_compute_diff`: the new version of every common
id for which `_element_changed` holds. -/
def diffModified (s : CacheState) (newState : ScreenState) : List UIElement :=
  let newElements := dictOfElems newState.elements
  ((dkeys s.elements).filter (fun i => (dkeys newElements).contains i)).filterMap
    (fun i =>
      match dget s.elements i, dget newElements i with
      | some o, some n =>
        if element_changed s.config.positionTolerance o n then some n else none
      | _, _ => none)

/-- `VisualStateCache._compute_diff`. A modified element's region is the
union of its new and old bounds (`self._elements[elem.id]` cannot fail for
a common id; `getD` supplies an irrelevant default on that dead branch). -/
def computeDiff (s : CacheState) (newState : ScreenState) : VisualDiff :=
  let added := diffAdded s newState
  let removed := diffRemoved s newState
  let modified := diffModified s newState
  let changedRegions :=
    added.map (fun e => ChangedRegion.mk e.bounds .added [e] [] []) ++
    removed.map (fun e => ChangedRegion.mk e.bounds .removed [] [e] []) ++
    modified.map (fun e =>
      ChangedRegion.mk (e.bounds.union ((dget s.elements e.id).getD e).bounds)
        .modified [] [] [e])
  { timestamp := newState.timestamp
    changedRegions := mergeChangedRegions changedRegions
    totalAdded := added.length
    totalRemoved := removed.length
    totalModified := modified.length }

/-- `VisualStateCache.update_full` (`now` models `datetime.now()`, used
only for the archived snapshot's timestamp fallback). -/
def updateFull (s : CacheState) (state : ScreenState) (now : Nat) :
    CacheState × VisualDiff :=
  let s1 :=
    if s.elements ≠ [] then
      { s with history := histAppend s.history (currentState s now) s.config.maxHistory }
    else s
  let diff := computeDiff s1 state
  let s2 := { s1 with
    elements := [], elementsByLabel := [], elementsByType := [],
    elementsByWindow := [] }
  let s3 := state.elements.foldl addElement s2
  ({ s3 with
      windows := state.windows.foldl (fun d w => dinsert d w.handle w) []
      activeWindow := state.activeWindow
      screenSize := state.screenSize
      lastUpdate := some state.timestamp
      updatesCount := s3.updatesCount + 1 },
   diff)

/-- `VisualStateCache.update_incremental`. -/
def updateIncremental (s : CacheState) (added : List UIElement)
    (removed : List String) (modified : List UIElement) (now : Nat) :
    CacheState × VisualDiff :=
  let s0 :=
    if s.elements ≠ [] then
      { s with history := histAppend s.history (currentState s now) s.config.maxHistory }
    else s
  let step1 := removed.foldl
    (fun (acc : CacheState × List ChangedRegion) eid =>
      match dget acc.1.elements eid with
      | some elem =>
        (removeElement acc.1 eid,
         acc.2 ++ [ChangedRegion.mk elem.bounds .removed [] [elem] []])
      | none => acc)
    (s0, [])
  let step2 := added.foldl
    (fun (acc : CacheState × List ChangedRegion) e =>
      (addElement acc.1 e,
       acc.2 ++ [ChangedRegion.mk e.bounds .added [e] [] []]))
    step1
  let step3 := modified.foldl
    (fun (acc : CacheState × List ChangedRegion) e =>
      match dget acc.1.elements e.id with
      | some oldElem =>
        (addElement (removeElement acc.1 e.id) e,
         acc.2 ++ [ChangedRegion.mk (e.bounds.union oldElem.bounds) .modified [] [] [e]])
      | none =>
        (addElement acc.1 e,
         acc.2 ++ [ChangedRegion.mk e.bounds .added [e] [] []]))
    step2
  let s' := { step3.1 with lastUpdate := some now, updatesCount := step3.1.updatesCount + 1 }
  (s', { timestamp := now
         changedRegions := mergeChangedRegions step3.2
         totalAdded := added.length
         totalRemoved := removed.length
         totalModified := modified.length })

/-- One step of the fuzzy scan of `get_element_by_label`: elements with a
truthy label are scored against the query (`fuzz.ratio` on lowered
strings); the running best (`best_match`, `best_score`, starting at
`None`, `0`) is replaced only on `score > best_score and
score >= threshold`. -/
def fuzzyStep (ratio : String → String → ℚ) (labelLower : String)
    (threshold : ℚ) (acc : Option (UIElement × ℚ)) (p : String × UIElement) :
    Option (UIElement × ℚ) :=
  match p.2.label with
  | some lbl =>
    if lbl ≠ "" then
      let score := ratio labelLower (pyLower lbl)
      let bestScore := match acc with
        | some q => q.2
        | none => 0
      if bestScore < score ∧ threshold ≤ score then some (p.2, score)
      else acc
    else acc
  | none => acc

/-- `VisualStateCache.get_element_by_label`. The similarity function
`fuzz.ratio` comes from the external `rapidfuzz` library and is a
parameter `ratio` of the model (scores on the library's 0–100 scale). -/
def getElementByLabel (s : CacheState) (ratio : String → String → ℚ)
    (label : String) (fuzzy : Bool := true) (threshold : ℚ := 80) :
    CacheState × Option UIElement :=
  let labelLower := pyLower label
  match dget s.elementsByLabel labelLower with
  | some (eid :: _) =>
    ({ s with cacheHits := s.cacheHits + 1 }, dget s.elements eid)
  | _ =>
    if fuzzy then
      let best := s.elements.foldl (fuzzyStep ratio labelLower threshold) none
      match best with
      | some (e, _) => ({ s with cacheHits := s.cacheHits + 1 }, some e)
      | none => ({ s with cacheMisses := s.cacheMisses + 1 }, none)
    else ({ s with cacheMisses := s.cacheMisses + 1 }, none)

/-! ## Change Detector (`capture.py`) -/

/-- The expansion of a box by the merge distance on all sides, as built
inline in `_merge_regions`. -/
def expandBox (b : BoundingBox) (d : Int) : BoundingBox :=
  ⟨b.x - d, b.y - d, b.width + 2 * d, b.height + 2 * d⟩

/-- Inner loop of `_merge_regions`: scan the regions after position `i`
(`j <= i or j in used` are skipped), absorbing each one whose bounds
intersect the running bounds expanded by the merge distance; the running
bounds take the union and the score the max. -/
def absorb (d : Int) : List (Nat × DirtyRegion) → BoundingBox → ℚ → List Nat →
    BoundingBox × ℚ × List Nat
  | [], current, score, used => (current, score, used)
  | (j, r) :: rest, current, score, used =>
    if used.contains j then absorb d rest current score used
    else if (expandBox current d).intersects r.bounds then
      absorb d rest (current.union r.bounds) (max score r.diffScore) (j :: used)
    else absorb d rest current score used

/-- Outer loop of `_merge_regions`: one forward pass over the indexed
regions, skipping those already absorbed. -/
def mergeLoop (d : Int) : List (Nat × DirtyRegion) → List Nat → List DirtyRegion
  | [], _ => []
  | (i, r) :: rest, used =>
    if used.contains i then mergeLoop d rest used
    else
      let a := absorb d rest r.bounds r.diffScore used
      ⟨a.1, a.2.1⟩ :: mergeLoop d rest a.2.2

/-- `ScreenCapture._merge_regions` (default `merge_distance = 20`). -/
def mergeRegions (regions : List DirtyRegion) (mergeDistance : Int := 20) :
    List DirtyRegion :=
  if regions.length ≤ 1 then regions
  else mergeLoop mergeDistance regions.enum []

/-- The descending-by-area comparison of
`dirty_regions.sort(key=lambda r: r.bounds.area, reverse=True)`. -/
def areaGe (a b : DirtyRegion) : Bool := decide (b.bounds.area ≤ a.bounds.area)

/-- The region-count cap at the end of `_detect_changes`: when the merged
list exceeds `max_regions`, keep the largest-by-area regions (stable
descending sort, then truncate). -/
def capRegions (maxRegions : Nat) (regions : List DirtyRegion) :
    List DirtyRegion :=
  if maxRegions < regions.length then (stableSort areaGe regions).take maxRegions
  else regions

/-- Spec-side order for the cap's tie-break (refinement comparison):
`a` before `b` when `a`'s area is larger, or the areas are equal and `a`
was discovered earlier (smaller original index). -/
def idxAreaGe (a b : Nat × DirtyRegion) : Bool :=
  decide (b.2.bounds.area < a.2.bounds.area) ||
  (decide (b.2.bounds.area = a.2.bounds.area) && decide (a.1 ≤ b.1))

/-- Spec-side characterization of the cap (refinement comparison for the
tie-break claim): order the regions by descending area, ties broken by
earlier discovery (smaller original index), and truncate. -/
def specCapKept (maxRegions : Nat) (regions : List DirtyRegion) :
    List DirtyRegion :=
  ((stableSort idxAreaGe regions.enum).take maxRegions).map (·.2)

/-- A cache as `VisualStateCache.__init__` builds it. -/
def initCache (cfg : CacheConfig) : CacheState := { config := cfg }

/-- Invariant of the fuzzy scan of `get_element_by_label` over the
elements `seen` so far: while no best match is held, every truthy-labeled
element seen scored below the threshold; once `(e, sc)` is held, `sc` is
`e`'s own score, it meets the threshold, `e` was seen, and no element seen
scores above `sc`. -/
def fuzzyInv (ratio : String → String → ℚ) (labelLower : String) (thr : ℚ)
    (seen : List (String × UIElement)) : Option (UIElement × ℚ) → Prop
  | none => ∀ p ∈ seen, ∀ lbl, p.2.label = some lbl → lbl ≠ "" →
      ratio labelLower (pyLower lbl) < thr
  | some (e, sc) =>
      (∃ lbl, e.label = some lbl ∧ lbl ≠ "" ∧ sc = ratio labelLower (pyLower lbl)) ∧
      thr ≤ sc ∧ (∃ p ∈ seen, p.2 = e) ∧
      ∀ p ∈ seen, ∀ lbl, p.2.label = some lbl → lbl ≠ "" →
        ratio labelLower (pyLower lbl) ≤ sc

/-- Claim C9 (part): boxes that touch on an edge. Touching means the shared
edge coordinate coincides and the ranges on the other axis meet
(inclusively), as two axis-aligned rectangles touch geometrically. -/
def touchingBoxes (a b : BoundingBox) : Prop :=
  (a.x2 = b.x ∧ a.y ≤ b.y2 ∧ b.y ≤ a.y2) ∨
  (a.y2 = b.y ∧ a.x ≤ b.x2 ∧ b.x ≤ a.x2)

/-- C9: for rectangles with non-negative width and height that merely touch
(one's right edge equals the other's left edge, or one's bottom edge equals
the other's top edge), `intersects` is `true` and `intersection` is a
degenerate zero-width or zero-height box rather than `none`; and `contains`
is inclusive of the right and bottom edges: a box contains the point
`(x + width, y + height)`. -/
theorem boundary_semantics (a b : BoundingBox)
    (ha : 0 ≤ a.width ∧ 0 ≤ a.height) (hb : 0 ≤ b.width ∧ 0 ≤ b.height)
    (ht : touchingBoxes a b) :
    a.intersects b = true ∧
    (∃ r : BoundingBox, a.intersection b = some r ∧ (r.width = 0 ∨ r.height = 0)) ∧
    a.contains (a.x + a.width) (a.y + a.height) = true := by
  obtain ⟨haw, hah⟩ := ha
  obtain ⟨hbw, hbh⟩ := hb
  have ht' : (a.x + a.width = b.x ∧ a.y ≤ b.y + b.height ∧ b.y ≤ a.y + a.height) ∨
      (a.y + a.height = b.y ∧ a.x ≤ b.x + b.width ∧ b.x ≤ a.x + a.width) := by
    simpa only [touchingBoxes, BoundingBox.x2, BoundingBox.y2] using ht
  have hiff : a.intersects b = true := by
    simp only [BoundingBox.intersects, BoundingBox.x2, BoundingBox.y2, Bool.not_eq_true',
      Bool.or_eq_false_iff, decide_eq_false_iff_not, not_lt]
    omega
  refine ⟨hiff,
    ⟨⟨max a.x b.x, max a.y b.y, min a.x2 b.x2 - max a.x b.x, min a.y2 b.y2 - max a.y b.y⟩,
      ?_, ?_⟩, ?_⟩
  · simp [BoundingBox.intersection, hiff]
  · rcases ht' with h | h
    · left
      show min a.x2 b.x2 - max a.x b.x = 0
      simp only [BoundingBox.x2]
      omega
    · right
      show min a.y2 b.y2 - max a.y b.y = 0
      simp only [BoundingBox.y2]
      omega
  · simp only [BoundingBox.contains, BoundingBox.x2, BoundingBox.y2,
      Bool.and_eq_true, decide_eq_true_eq]
    omega

/-- Witness for C9 at concrete boxes: `(0,0,10,10)` touching `(10,0,5,5)`
on the right edge. -/
theorem boundary_semantics_witness :
    (BoundingBox.mk 0 0 10 10).intersects ⟨10, 0, 5, 5⟩ = true ∧
    (∃ r : BoundingBox,
      (BoundingBox.mk 0 0 10 10).intersection ⟨10, 0, 5, 5⟩ = some r ∧
      (r.width = 0 ∨ r.height = 0)) ∧
    (BoundingBox.mk 0 0 10 10).contains (0 + 10) (0 + 10) = true := by
  have h := boundary_semantics ⟨0, 0, 10, 10⟩ ⟨10, 0, 5, 5⟩
    (by constructor <;> decide) (by constructor <;> decide)
    (Or.inl (by refine ⟨?_, ?_, ?_⟩ <;> decide))
  exact h

/-- C2: the stable identifier is a pure function of the element kind and the
bounding rectangle's coordinates quantized to the 20-pixel grid by floor
division; whenever two rectangles fall in the same quantized cell, the
generated identifiers coincide for any labels and texts, and for every hash
function the implementation might use. -/
theorem stable_id_of_quantized (md5hex8 : String → String) (K : ElementType)
    (r1 r2 : BoundingBox) (l1 t1 l2 t2 : Option String)
    (hx : r1.x.fdiv 20 = r2.x.fdiv 20) (hy : r1.y.fdiv 20 = r2.y.fdiv 20)
    (hw : r1.width.fdiv 20 = r2.width.fdiv 20)
    (hh : r1.height.fdiv 20 = r2.height.fdiv 20) :
    generate_stable_id md5hex8 K r1 l1 t1 = generate_stable_id md5hex8 K r2 l2 t2 := by
  unfold generate_stable_id posKey
  rw [hx, hy, hw, hh]

/-- Witness for C2 at the identity hash, a button, rectangles
`(0,0,30,25)` and `(19,5,35,30)` (same quantized cell `0_0_1_1`), and
differing labels/texts. -/
theorem stable_id_of_quantized_witness :
    ((BoundingBox.mk 0 0 30 25).x.fdiv 20 = (BoundingBox.mk 19 5 35 30).x.fdiv 20) ∧
    generate_stable_id (fun s => s) .button ⟨0, 0, 30, 25⟩ (some "OK") none =
      generate_stable_id (fun s => s) .button ⟨19, 5, 35, 30⟩ none (some "ok") :=
  ⟨by decide,
   stable_id_of_quantized (fun s => s) .button ⟨0, 0, 30, 25⟩ ⟨19, 5, 35, 30⟩
     (some "OK") none none (some "ok")
     (by decide) (by decide) (by decide) (by decide)⟩

/-- C10: `clear` empties the element map, the window map, the three
secondary indexes and the history ring, resets the active window and the
last-update timestamp to `none`, and leaves the statistics counters
(hits, misses, updates count) unchanged. -/
theorem clear_frame (s : CacheState) :
    (clear s).elements = [] ∧ (clear s).windows = [] ∧
    (clear s).elementsByLabel = [] ∧ (clear s).elementsByType = [] ∧
    (clear s).elementsByWindow = [] ∧ (clear s).history = [] ∧
    (clear s).activeWindow = none ∧ (clear s).lastUpdate = none ∧
    (clear s).cacheHits = s.cacheHits ∧ (clear s).cacheMisses = s.cacheMisses ∧
    (clear s).updatesCount = s.updatesCount := by
  simp [clear]

/-- Helper: an insertion sort leaves a list untouched when every element
already compares `le` to all later ones. -/
theorem stableSort_eq_of_sorted {α : Type} (le : α → α → Bool) :
    ∀ l : List α, l.Pairwise (fun a b => le a b = true) → stableSort le l = l := by
  intro l hl
  induction l with
  | nil => rfl
  | cons a as ih =>
    rw [stableSort, ih hl.of_cons]
    cases as with
    | nil => rfl
    | cons b bs =>
      rw [insertSorted, if_pos ((List.pairwise_cons.mp hl).1 b (List.mem_cons_self b bs))]

/-- Helper: the sweep of `_merge_changed_regions` is the identity on a
pairwise non-intersecting list. -/
theorem sweepMerge_eq_of_disjoint :
    ∀ (rest : List ChangedRegion) (r : ChangedRegion),
      (r :: rest).Pairwise (fun a b => a.bounds.intersects b.bounds = false) →
      sweepMerge r rest = r :: rest := by
  intro rest
  induction rest with
  | nil => intro r _; rfl
  | cons b bs ih =>
    intro r h
    rw [sweepMerge, if_neg, ih b h.of_cons]
    simp [(List.pairwise_cons.mp h).1 b (List.mem_cons_self b bs)]

/-- C5 counterexample: after one merge pass over three regions the output
still contains two intersecting regions (the sweep only unions
sort-adjacent overlaps, and a union can grow past an already-emitted
region), so a second application merges further and yields a different
list. -/
theorem merge_changed_idem_counterexample :
    mergeChangedRegions (mergeChangedRegions
      [ChangedRegion.mk ⟨0, 0, 10, 10⟩ .added [] [] [],
       ChangedRegion.mk ⟨100, 0, 5, 5⟩ .added [] [] [],
       ChangedRegion.mk ⟨0, 5, 200, 1⟩ .added [] [] []]) ≠
    mergeChangedRegions
      [ChangedRegion.mk ⟨0, 0, 10, 10⟩ .added [] [] [],
       ChangedRegion.mk ⟨100, 0, 5, 5⟩ .added [] [] [],
       ChangedRegion.mk ⟨0, 5, 200, 1⟩ .added [] [] []] := by
  decide

/-- C5 (amended): the merge pass is the identity — and hence idempotent —
on lists that are already sorted by `(y, x)` and whose regions are
pairwise non-intersecting; in general one pass does not make regions
pairwise disjoint and re-merging an already-merged list can union
further. -/
theorem merge_changed_fixed_point (l : List ChangedRegion)
    (hs : l.Pairwise (fun a b => crLe a b = true))
    (hd : l.Pairwise (fun a b => a.bounds.intersects b.bounds = false)) :
    mergeChangedRegions l = l := by
  unfold mergeChangedRegions
  split
  · rfl
  · rw [stableSort_eq_of_sorted crLe l hs]
    cases l with
    | nil => rfl
    | cons r rest => exact sweepMerge_eq_of_disjoint rest r hd

/-- Witness for C5's amended theorem: two sorted, disjoint regions come
back unchanged. -/
theorem merge_changed_fixed_point_witness :
    mergeChangedRegions
      [ChangedRegion.mk ⟨0, 0, 5, 5⟩ .added [] [] [],
       ChangedRegion.mk ⟨10, 10, 5, 5⟩ .removed [] [] []] =
    [ChangedRegion.mk ⟨0, 0, 5, 5⟩ .added [] [] [],
     ChangedRegion.mk ⟨10, 10, 5, 5⟩ .removed [] [] []] :=
  merge_changed_fixed_point _ (by decide) (by decide)

/-- C6 counterexample: `_merge_regions` makes a single forward pass and is
not repeated to a fixpoint. With merge distance 20 and discovery order
`(0,0,10,10)`, `(50,0,10,10)`, `(25,0,10,10)`, the first region absorbs the
third (growing to `(0,0,35,10)`), but the second was already scanned and
stays separate — the returned list holds two regions whose expanded bounds
intersect. -/
theorem detector_merge_counterexample :
    (mergeRegions
      [DirtyRegion.mk ⟨0, 0, 10, 10⟩ (1/2),
       DirtyRegion.mk ⟨50, 0, 10, 10⟩ (7/10),
       DirtyRegion.mk ⟨25, 0, 10, 10⟩ (3/5)] 20).map (·.bounds) =
      [⟨0, 0, 35, 10⟩, ⟨50, 0, 10, 10⟩] ∧
    (expandBox ⟨0, 0, 35, 10⟩ 20).intersects ⟨50, 0, 10, 10⟩ = true := by
  constructor
  · decide
  · decide

/-- C6 (amended): the Change Detector's merge step unions regions whose
expanded bounds intersect in a single forward pass, keeping the union of
bounds and the maximum of the two intensity scores — exactly so for a
two-region batch — but the pass is not repeated until no merges occur, so
the expanded bounds of two returned regions may still intersect. -/
theorem detector_merge_pair (r1 r2 : DirtyRegion) (d : Int) :
    mergeRegions [r1, r2] d =
      if (expandBox r1.bounds d).intersects r2.bounds then
        [⟨r1.bounds.union r2.bounds, max r1.diffScore r2.diffScore⟩]
      else [r1, r2] := by
  by_cases h : (expandBox r1.bounds d).intersects r2.bounds
  · simp [mergeRegions, List.enum, List.enumFrom, mergeLoop, absorb, h, List.contains]
  · simp only [h, if_false]
    simp [mergeRegions, List.enum, List.enumFrom, mergeLoop, absorb, h, List.contains]

/-- Helper: a key that is not in the dict looks up to `none`. -/
theorem dget_eq_none {κ α : Type} [DecidableEq κ] {d : List (κ × α)} {k : κ}
    (h : dmem d k = false) : dget d k = none := by
  rw [dmem] at h
  rw [dget, List.find?_eq_none.mpr, Option.map_none']
  intro p hp
  have := List.any_eq_false.mp h p hp
  simpa using this

/-- Helper: after `d[k] = v`, `d[k]` is `v`. -/
theorem dget_dinsert_self {κ α : Type} [DecidableEq κ] (d : List (κ × α)) (k : κ) (v : α) :
    dget (dinsert d k v) k = some v := by
  rw [dinsert]
  split
  · rename_i hmem
    induction d with
    | nil => simp [dmem] at hmem
    | cons p t ih =>
      by_cases hp : p.1 = k
      · simp [dget, List.find?, hp]
      · have ht : dmem t k = true := by
          rw [dmem, List.any_cons] at hmem
          rcases Bool.or_eq_true_iff.mp hmem with h | h
          · exact absurd (of_decide_eq_true h) hp
          · exact h
        rw [List.map_cons]
        have hhead : (if p.1 = k then (k, v) else p) = p := if_neg hp
        rw [hhead, dget, List.find?]
        have hdec : (decide (p.1 = k)) = false := decide_eq_false hp
        rw [hdec]
        exact ih ht
  · rename_i hmem
    have hfalse : dmem d k = false := by
      rcases Bool.eq_false_or_eq_true (dmem d k) with h | h
      · exact absurd h hmem
      · exact h
    rw [dmem] at hfalse
    rw [dget, List.find?_append]
    have h1 : d.find? (fun p => decide (p.1 = k)) = none := by
      rw [List.find?_eq_none]
      intro p hp
      have := List.any_eq_false.mp hfalse p hp
      simpa using this
    simp [h1, List.find?]

/-- Helper: lookup in an empty dict. -/
theorem dget_nil {κ α : Type} [DecidableEq κ] (k : κ) :
    dget ([] : List (κ × α)) k = none := rfl

/-- C4: incremental-update fallback semantics. Removing an identifier that
is not cached leaves the element map unchanged and contributes zero
`ChangedRegion`s; "modifying" an element whose identifier is not cached
inserts it and reports it in a region of change type `added`, carried in
`added_elements` (and in no `modified_elements`). -/
theorem incremental_fallback (s : CacheState) (now : Nat)
    (rid : String) (e : UIElement)
    (hr : dmem s.elements rid = false)
    (he : dmem s.elements e.id = false) :
    ((updateIncremental s [] [rid] [] now).1.elements = s.elements ∧
     (updateIncremental s [] [rid] [] now).2.changedRegions = []) ∧
    (dget (updateIncremental s [] [] [e] now).1.elements e.id = some e ∧
     (updateIncremental s [] [] [e] now).2.changedRegions =
       [ChangedRegion.mk e.bounds .added [e] [] []]) := by
  have hr' : dget s.elements rid = none := dget_eq_none hr
  have he' : dget s.elements e.id = none := dget_eq_none he
  by_cases h0 : s.elements = []
  · simp only [updateIncremental, h0, ne_eq, not_true_eq_false, if_false,
      List.foldl_cons, List.foldl_nil, dget_nil]
    refine ⟨⟨trivial, rfl⟩, ?_, ?_⟩
    · show dget (addElement s e).elements e.id = some e
      simp only [addElement]
      exact dget_dinsert_self _ _ _
    · rfl
  · have h1 : ({ s with history := (histAppend s.history (currentState s now) s.config.maxHistory) } : CacheState).elements = s.elements := rfl
    simp only [updateIncremental, h0, ne_eq, not_false_eq_true, if_true,
      List.foldl_cons, List.foldl_nil, h1, hr', he']
    refine ⟨⟨trivial, rfl⟩, ?_, ?_⟩
    · show dget (addElement _ e).elements e.id = some e
      simp only [addElement]
      exact dget_dinsert_self _ _ _
    · rfl

/-- Witness for C4: an empty default cache, the absent id `"ghost"`, and a
concrete button element. -/
theorem incremental_fallback_witness :
    (dmem (initCache {}).elements "ghost" = false ∧
     dmem (initCache {}).elements "e1" = false) ∧
    (((updateIncremental (initCache {}) [] ["ghost"] [] 7).1.elements =
        (initCache {}).elements ∧
      (updateIncremental (initCache {}) [] ["ghost"] [] 7).2.changedRegions = []) ∧
     (dget (updateIncremental (initCache {}) [] []
        [UIElement.mk "e1" .button ⟨0, 0, 10, 10⟩ (some "OK") none 1 true true false none none] 7).1.elements
        "e1" =
        some (UIElement.mk "e1" .button ⟨0, 0, 10, 10⟩ (some "OK") none 1 true true false none none) ∧
      (updateIncremental (initCache {}) [] []
        [UIElement.mk "e1" .button ⟨0, 0, 10, 10⟩ (some "OK") none 1 true true false none none] 7).2.changedRegions =
        [ChangedRegion.mk ⟨0, 0, 10, 10⟩ .added
          [UIElement.mk "e1" .button ⟨0, 0, 10, 10⟩ (some "OK") none 1 true true false none none] [] []])) :=
  ⟨⟨by decide, by decide⟩,
   incremental_fallback (initCache {}) 7 "ghost"
     (UIElement.mk "e1" .button ⟨0, 0, 10, 10⟩ (some "OK") none 1 true true false none none)
     (by decide) (by decide)⟩

/-- Helper: membership test agrees with the key list. -/
theorem dmem_eq_true_iff {κ α : Type} [DecidableEq κ] {d : List (κ × α)} {k : κ} :
    dmem d k = true ↔ k ∈ dkeys d := by
  rw [dmem, List.any_eq_true]
  constructor
  · rintro ⟨p, hp, hd⟩
    exact List.mem_map.mpr ⟨p, hp, of_decide_eq_true hd⟩
  · intro hm
    rcases List.mem_map.mp hm with ⟨p, hp, he⟩
    exact ⟨p, hp, decide_eq_true he⟩

/-- Helper: negative membership test agrees with the key list. -/
theorem dmem_eq_false_iff {κ α : Type} [DecidableEq κ] {d : List (κ × α)} {k : κ} :
    dmem d k = false ↔ k ∉ dkeys d := by
  rw [← Bool.not_eq_true, not_iff_not]
  exact dmem_eq_true_iff

/-- Helper: deleting the head key of a duplicate-free dict drops exactly
the head entry. -/
theorem derase_cons_self {κ α : Type} [DecidableEq κ] {k : κ} {v : α}
    {t : List (κ × α)} (hk : k ∉ dkeys t) : derase ((k, v) :: t) k = t := by
  rw [derase, List.filter_cons]
  have h1 : (decide ((k, v).1 ≠ k)) = false := by simp
  rw [h1, if_neg (by simp)]
  apply List.filter_eq_self.mpr
  intro p hp
  simp only [decide_eq_true_eq, ne_eq]
  intro hpk
  exact hk (by rw [← hpk]; exact List.mem_map_of_mem (·.1) hp)

/-- Helper: assignment to a fresh key appends. -/
theorem dinsert_of_not_mem {κ α : Type} [DecidableEq κ] {d : List (κ × α)} {k : κ}
    (h : dmem d k = false) (v : α) : dinsert d k v = d ++ [(k, v)] := by
  rw [dinsert, if_neg]
  simp [h]

/-- Helper: `_remove_element` on a present key deletes its entry. -/
theorem removeElement_elements {s : CacheState} {k : String} {v : UIElement}
    (h : dget s.elements k = some v) :
    (removeElement s k).elements = derase s.elements k := by
  unfold removeElement
  rw [h]

/-- Helper: below capacity, `_add_element` only inserts. -/
theorem addElement_elements_of_lt {s : CacheState} {e : UIElement}
    (h : s.elements.length < s.config.maxElements) :
    (addElement s e).elements = dinsert s.elements e.id e := by
  unfold addElement
  rw [if_neg (by omega)]

/-- Helper: `_add_element` never touches the configuration. -/
theorem addElement_config (s : CacheState) (e : UIElement) :
    (addElement s e).config = s.config := by
  unfold addElement
  split
  · split
    · rfl
    · unfold removeElement
      split
      · rfl
      · rfl
  · rfl

/-- Helper: lookup at the head entry. -/
theorem dget_cons_self {κ α : Type} [DecidableEq κ] (k : κ) (v : α)
    (t : List (κ × α)) : dget ((k, v) :: t) k = some v := by
  simp [dget, List.find?]

/-- Helper: at capacity, `_add_element` first evicts the head of the
insertion-ordered element dict. -/
theorem addElement_elements_evict {s : CacheState} {e : UIElement} {k : String}
    {v : UIElement} {t : List (String × UIElement)}
    (hL : s.elements = (k, v) :: t)
    (hm : s.config.maxElements ≤ s.elements.length)
    (hk : k ∉ dkeys t) :
    (addElement s e).elements = dinsert t e.id e := by
  have hgv : dget s.elements k = some v := by rw [hL]; exact dget_cons_self k v t
  have hrm : (removeElement s k).elements = t := by
    rw [removeElement_elements hgv, hL, derase_cons_self hk]
  simp only [addElement]
  rw [if_pos hm, hL]
  simp only []
  rw [hrm]

/-- Helper: insertions never touch the configuration. -/
theorem foldl_addElement_config (es : List UIElement) (s : CacheState) :
    (es.foldl addElement s).config = s.config := by
  induction es generalizing s with
  | nil => rfl
  | cons e t ih => rw [List.foldl_cons, ih, addElement_config]

/-- C3: capacity invariant with FIFO eviction. Folding any insertion
sequence of distinct-id elements into an empty cache leaves at most
`max_elements` elements, and the surviving keys are exactly the most
recently inserted `max_elements` ids in insertion order — every overflow
evicted the least-recently-inserted element still present, never a more
recent one. -/
theorem capacity_fifo (cfg : CacheConfig) (es : List UIElement)
    (h1 : 1 ≤ cfg.maxElements) (hnd : (es.map (·.id)).Nodup) :
    dkeys (es.foldl addElement (initCache cfg)).elements =
      (es.map (·.id)).drop (es.length - cfg.maxElements) ∧
    (es.foldl addElement (initCache cfg)).elements.length ≤ cfg.maxElements := by
  have main : ∀ l : List UIElement, (l.map (·.id)).Nodup →
      dkeys (l.foldl addElement (initCache cfg)).elements =
        (l.map (·.id)).drop (l.length - cfg.maxElements) := by
    intro l
    induction l using List.reverseRecOn with
    | nil => intro _; simp [initCache, dkeys]
    | append_singleton l e ih =>
      intro hnd'
      rw [List.map_append] at hnd'
      obtain ⟨hndl, -, hdisj⟩ := List.nodup_append.mp hnd'
      have heid : e.id ∉ l.map (·.id) := by
        intro hmem
        exact hdisj hmem (by simp)
      have hkeys := ih hndl
      rw [List.foldl_append, List.foldl_cons, List.foldl_nil]
      have hcfg : (l.foldl addElement (initCache cfg)).config = cfg :=
        foldl_addElement_config l (initCache cfg)
      have hlen : (l.foldl addElement (initCache cfg)).elements.length =
          l.length - (l.length - cfg.maxElements) := by
        have h2 : (l.foldl addElement (initCache cfg)).elements.length =
            (dkeys (l.foldl addElement (initCache cfg)).elements).length :=
          (List.length_map _ _).symm
        rw [h2, hkeys, List.length_drop, List.length_map]
      by_cases hcase : l.length < cfg.maxElements
      · have hz : l.length - cfg.maxElements = 0 := by omega
        have hlt : (l.foldl addElement (initCache cfg)).elements.length <
            (l.foldl addElement (initCache cfg)).config.maxElements := by
          rw [hcfg]; omega
        rw [addElement_elements_of_lt hlt]
        have hememb : dmem (l.foldl addElement (initCache cfg)).elements e.id = false := by
          apply dmem_eq_false_iff.mpr
          rw [hkeys]
          intro hc
          exact heid (List.mem_of_mem_drop hc)
        rw [dinsert_of_not_mem hememb]
        have hz' : (l ++ [e]).length - cfg.maxElements = 0 := by
          rw [List.length_append]; simp; omega
        rw [hz', List.drop_zero, List.map_append, dkeys, List.map_append, ← dkeys, hkeys,
          hz, List.drop_zero]
        rfl
      · have hmle : cfg.maxElements ≤ l.length := by omega
        have hm : (l.foldl addElement (initCache cfg)).config.maxElements ≤
            (l.foldl addElement (initCache cfg)).elements.length := by
          rw [hcfg]; omega
        obtain ⟨k, v, t, hL⟩ :
            ∃ k v t, (l.foldl addElement (initCache cfg)).elements = (k, v) :: t := by
          cases hE : (l.foldl addElement (initCache cfg)).elements with
          | nil => rw [hE] at hlen; simp at hlen; omega
          | cons p t =>
            cases p with
            | mk k v => exact ⟨k, v, t, rfl⟩
        have hknd : (dkeys (l.foldl addElement (initCache cfg)).elements).Nodup := by
          rw [hkeys]
          exact (List.drop_sublist _ _).nodup hndl
        have hkt : k ∉ dkeys t := by
          rw [hL] at hknd
          exact (List.nodup_cons.mp hknd).1
        rw [addElement_elements_evict hL hm hkt]
        have hememb : dmem t e.id = false := by
          apply dmem_eq_false_iff.mpr
          intro hc
          apply heid
          have h3 : e.id ∈ dkeys (l.foldl addElement (initCache cfg)).elements := by
            rw [hL]
            exact List.mem_cons_of_mem _ hc
          rw [hkeys] at h3
          exact List.mem_of_mem_drop h3
        rw [dinsert_of_not_mem hememb]
        have ht : dkeys t = (l.map (·.id)).drop (l.length - cfg.maxElements + 1) := by
          have h4 : dkeys (l.foldl addElement (initCache cfg)).elements = k :: dkeys t := by
            rw [hL]; rfl
          have h5 : (k :: dkeys t).tail =
              ((l.map (·.id)).drop (l.length - cfg.maxElements)).tail := by
            rw [← h4, hkeys]
          rw [List.tail_drop] at h5
          exact h5
        have h6 : (l ++ [e]).length - cfg.maxElements =
            (l.length - cfg.maxElements) + 1 := by
          rw [List.length_append]; simp; omega
        rw [h6, List.map_append, List.drop_append_of_le_length
          (by rw [List.length_map]; omega)]
        have h7 : dkeys (t ++ [(e.id, e)]) = dkeys t ++ [e.id] := by
          rw [dkeys, List.map_append]
          rfl
        rw [h7, ht]
        rfl
  refine ⟨main es hnd, ?_⟩
  have h2 : (es.foldl addElement (initCache cfg)).elements.length =
      (dkeys (es.foldl addElement (initCache cfg)).elements).length :=
    (List.length_map _ _).symm
  rw [h2, main es hnd, List.length_drop, List.length_map]
  omega

/-- Witness for C3: capacity 2, three distinct buttons inserted; the
survivors are the last two, in order — the first (oldest) was evicted. -/
theorem capacity_fifo_witness :
    (1 ≤ (CacheConfig.mk 2 10 5).maxElements ∧
      (([UIElement.mk "a" .button ⟨0, 0, 1, 1⟩ none none 1 true true false none none,
         UIElement.mk "b" .button ⟨2, 0, 1, 1⟩ none none 1 true true false none none,
         UIElement.mk "c" .button ⟨4, 0, 1, 1⟩ none none 1 true true false none none]).map
        (·.id)).Nodup) ∧
    (dkeys (([UIElement.mk "a" .button ⟨0, 0, 1, 1⟩ none none 1 true true false none none,
              UIElement.mk "b" .button ⟨2, 0, 1, 1⟩ none none 1 true true false none none,
              UIElement.mk "c" .button ⟨4, 0, 1, 1⟩ none none 1 true true false none none]).foldl
        addElement (initCache (CacheConfig.mk 2 10 5))).elements =
      (([UIElement.mk "a" .button ⟨0, 0, 1, 1⟩ none none 1 true true false none none,
         UIElement.mk "b" .button ⟨2, 0, 1, 1⟩ none none 1 true true false none none,
         UIElement.mk "c" .button ⟨4, 0, 1, 1⟩ none none 1 true true false none none]).map
        (·.id)).drop
        (([UIElement.mk "a" .button ⟨0, 0, 1, 1⟩ none none 1 true true false none none,
           UIElement.mk "b" .button ⟨2, 0, 1, 1⟩ none none 1 true true false none none,
           UIElement.mk "c" .button ⟨4, 0, 1, 1⟩ none none 1 true true false none none]).length -
          (CacheConfig.mk 2 10 5).maxElements) ∧
     (([UIElement.mk "a" .button ⟨0, 0, 1, 1⟩ none none 1 true true false none none,
        UIElement.mk "b" .button ⟨2, 0, 1, 1⟩ none none 1 true true false none none,
        UIElement.mk "c" .button ⟨4, 0, 1, 1⟩ none none 1 true true false none none]).foldl
        addElement (initCache (CacheConfig.mk 2 10 5))).elements.length ≤
       (CacheConfig.mk 2 10 5).maxElements) :=
  ⟨⟨by decide, by decide⟩,
   capacity_fifo (CacheConfig.mk 2 10 5)
     [UIElement.mk "a" .button ⟨0, 0, 1, 1⟩ none none 1 true true false none none,
      UIElement.mk "b" .button ⟨2, 0, 1, 1⟩ none none 1 true true false none none,
      UIElement.mk "c" .button ⟨4, 0, 1, 1⟩ none none 1 true true false none none]
     (by decide) (by decide)⟩

/-- Helper: stable insertion permutes. -/
theorem insertSorted_perm {α : Type} (le : α → α → Bool) (a : α) :
    ∀ l : List α, (insertSorted le a l).Perm (a :: l) := by
  intro l
  induction l with
  | nil => rfl
  | cons b bs ih =>
    rw [insertSorted]
    split
    · rfl
    · exact (List.Perm.cons b ih).trans (List.Perm.swap a b bs)

/-- Helper: the stable sort permutes its input. -/
theorem stableSort_perm {α : Type} (le : α → α → Bool) :
    ∀ l : List α, (stableSort le l).Perm l := by
  intro l
  induction l with
  | nil => rfl
  | cons a as ih =>
    rw [stableSort]
    exact (insertSorted_perm le a (stableSort le as)).trans (ih.cons a)

/-- Helper: indices produced by `enumFrom n` are at least `n`. -/
theorem le_fst_of_mem_enumFrom {α : Type} {p : Nat × α} :
    ∀ {n : Nat} {l : List α}, p ∈ List.enumFrom n l → n ≤ p.1 := by
  intro n l
  induction l generalizing n with
  | nil => intro h; simp at h
  | cons x xs ih =>
    intro h
    rw [List.enumFrom] at h
    rcases List.mem_cons.mp h with h | h
    · rw [h]
    · exact Nat.le_of_succ_le (ih h)

/-- Helper: `enumFrom` indices strictly increase along the list. -/
theorem enumFrom_pairwise_lt {α : Type} :
    ∀ (l : List α) (n : Nat),
      (List.enumFrom n l).Pairwise (fun a b => a.1 < b.1) := by
  intro l
  induction l with
  | nil => intro n; simp
  | cons x xs ih =>
    intro n
    rw [List.enumFrom]
    refine List.Pairwise.cons ?_ (ih (n + 1))
    intro p hp
    exact Nat.lt_of_succ_le (le_fst_of_mem_enumFrom hp)

/-- Helper: on index-tagged regions whose tags respect discovery order,
the spec-side tie-broken comparison coincides with the code's
area-descending comparison. -/
theorem idxAreaGe_eq_areaGe {r q : DirtyRegion} {i j : Nat} (hij : i < j) :
    idxAreaGe (i, r) (j, q) = areaGe r q := by
  unfold idxAreaGe areaGe
  rw [decide_eq_true (Nat.le_of_lt hij), Bool.and_true]
  by_cases h1 : q.bounds.area < r.bounds.area
  · rw [decide_eq_true h1, Bool.true_or, decide_eq_true (le_of_lt h1)]
  · by_cases h2 : q.bounds.area = r.bounds.area
    · rw [decide_eq_true h2, decide_eq_false h1, Bool.false_or,
        decide_eq_true (le_of_eq h2)]
    · rw [decide_eq_false h1, decide_eq_false h2, Bool.false_or,
        decide_eq_false (by omega)]

/-- Helper: inserting a region tagged with a smaller index commutes with
dropping the tags. -/
theorem map_snd_insertSorted (r : DirtyRegion) (i : Nat) :
    ∀ L : List (Nat × DirtyRegion), (∀ p ∈ L, i < p.1) →
      (insertSorted idxAreaGe (i, r) L).map (·.2) =
        insertSorted areaGe r (L.map (·.2)) := by
  intro L
  induction L with
  | nil => intro _; rfl
  | cons p t ih =>
    intro h
    obtain ⟨j, q⟩ := p
    have hij : i < j := h (j, q) (List.mem_cons_self _ _)
    rw [List.map_cons, insertSorted, insertSorted, idxAreaGe_eq_areaGe hij]
    split
    · rfl
    · rw [List.map_cons, ih (fun p hp => h p (List.mem_cons_of_mem _ hp))]

/-- Helper: on an index-tagged list with increasing tags, the stable sort
by area alone equals the sort by (area descending, index ascending) with
the tags dropped — stability is exactly the discovery-order tie-break. -/
theorem map_snd_stableSort :
    ∀ l : List (Nat × DirtyRegion), l.Pairwise (fun a b => a.1 < b.1) →
      (stableSort idxAreaGe l).map (·.2) = stableSort areaGe (l.map (·.2)) := by
  intro l
  induction l with
  | nil => intro _; rfl
  | cons p t ih =>
    intro h
    obtain ⟨i, r⟩ := p
    rw [stableSort, List.map_cons, stableSort, ← ih h.of_cons]
    apply map_snd_insertSorted
    intro q hq
    have hqt : q ∈ t := (stableSort_perm idxAreaGe t).mem_iff.mp hq
    exact (List.pairwise_cons.mp h).1 q hqt

/-- C7: when the merged dirty-region list exceeds the configured maximum,
the Change Detector keeps exactly `max_regions` regions, and they are the
prefix of the input ordered by descending bounding-box area with ties
broken in favour of regions discovered earlier (the sort is stable). -/
theorem cap_largest_tiebreak (maxRegions : Nat) (regions : List DirtyRegion)
    (h : maxRegions < regions.length) :
    (capRegions maxRegions regions).length = maxRegions ∧
    capRegions maxRegions regions = specCapKept maxRegions regions := by
  have hperm : (stableSort areaGe regions).length = regions.length :=
    (stableSort_perm areaGe regions).length_eq
  have hcap : capRegions maxRegions regions =
      (stableSort areaGe regions).take maxRegions := by
    rw [capRegions, if_pos h]
  constructor
  · rw [hcap, List.length_take, hperm]
    omega
  · rw [hcap, specCapKept, List.map_take,
      map_snd_stableSort regions.enum (enumFrom_pairwise_lt regions 0)]
    have : List.map (·.2) regions.enum = regions := List.enumFrom_map_snd 0 regions
    rw [this]

/-- Witness for C7: four regions, cap 2, with an area tie between the two
3×3 regions — the earlier-discovered one is kept. -/
theorem cap_largest_tiebreak_witness :
    (2 < ([DirtyRegion.mk ⟨0, 0, 2, 2⟩ 0, DirtyRegion.mk ⟨5, 5, 3, 3⟩ 0,
           DirtyRegion.mk ⟨9, 9, 3, 3⟩ 0, DirtyRegion.mk ⟨1, 1, 1, 1⟩ 0]).length) ∧
    ((capRegions 2 [DirtyRegion.mk ⟨0, 0, 2, 2⟩ 0, DirtyRegion.mk ⟨5, 5, 3, 3⟩ 0,
        DirtyRegion.mk ⟨9, 9, 3, 3⟩ 0, DirtyRegion.mk ⟨1, 1, 1, 1⟩ 0]).length = 2 ∧
     capRegions 2 [DirtyRegion.mk ⟨0, 0, 2, 2⟩ 0, DirtyRegion.mk ⟨5, 5, 3, 3⟩ 0,
        DirtyRegion.mk ⟨9, 9, 3, 3⟩ 0, DirtyRegion.mk ⟨1, 1, 1, 1⟩ 0] =
       specCapKept 2 [DirtyRegion.mk ⟨0, 0, 2, 2⟩ 0, DirtyRegion.mk ⟨5, 5, 3, 3⟩ 0,
        DirtyRegion.mk ⟨9, 9, 3, 3⟩ 0, DirtyRegion.mk ⟨1, 1, 1, 1⟩ 0]) :=
  ⟨by decide,
   cap_largest_tiebreak 2
     [DirtyRegion.mk ⟨0, 0, 2, 2⟩ 0, DirtyRegion.mk ⟨5, 5, 3, 3⟩ 0,
      DirtyRegion.mk ⟨9, 9, 3, 3⟩ 0, DirtyRegion.mk ⟨1, 1, 1, 1⟩ 0]
     (by decide)⟩

/-- Helper: one scan step preserves the fuzzy-scan invariant. -/
theorem fuzzyStep_inv {ratio : String → String → ℚ} {L : String} {thr : ℚ}
    (hthr : 0 < thr) {seen : List (String × UIElement)}
    {acc : Option (UIElement × ℚ)} (p : String × UIElement)
    (hinv : fuzzyInv ratio L thr seen acc) :
    fuzzyInv ratio L thr (seen ++ [p]) (fuzzyStep ratio L thr acc p) := by
  cases hlbl : p.2.label with
  | none =>
    cases acc with
    | none =>
      simp only [fuzzyStep, hlbl]
      intro q hq lbl h1 h2
      rcases List.mem_append.mp hq with h | h
      · exact hinv q h lbl h1 h2
      · rw [List.mem_singleton.mp h] at h1
        rw [hlbl] at h1
        exact absurd h1 (by simp)
    | some b =>
      obtain ⟨e, sc⟩ := b
      simp only [fuzzyStep, hlbl]
      obtain ⟨hex, hth, ⟨q0, hq0, hq0e⟩, hall⟩ := hinv
      refine ⟨hex, hth, ⟨q0, List.mem_append_left _ hq0, hq0e⟩, ?_⟩
      intro q hq lbl h1 h2
      rcases List.mem_append.mp hq with h | h
      · exact hall q h lbl h1 h2
      · rw [List.mem_singleton.mp h] at h1
        rw [hlbl] at h1
        exact absurd h1 (by simp)
  | some lbl =>
    by_cases hne : lbl ≠ ""
    · cases acc with
      | none =>
        simp only [fuzzyStep, hlbl]
        rw [if_pos hne]
        by_cases hcond : (0:ℚ) < ratio L (pyLower lbl) ∧ thr ≤ ratio L (pyLower lbl)
        · rw [if_pos hcond]
          refine ⟨⟨lbl, hlbl, hne, rfl⟩, hcond.2,
            ⟨p, List.mem_append_right _ (List.mem_singleton_self p), rfl⟩, ?_⟩
          intro q hq lbl2 h1 h2
          rcases List.mem_append.mp hq with h | h
          · exact le_of_lt (lt_of_lt_of_le (hinv q h lbl2 h1 h2) hcond.2)
          · rw [List.mem_singleton.mp h] at h1
            rw [hlbl] at h1
            rw [← Option.some_inj.mp h1]
        · rw [if_neg hcond]
          intro q hq lbl2 h1 h2
          rcases List.mem_append.mp hq with h | h
          · exact hinv q h lbl2 h1 h2
          · rw [List.mem_singleton.mp h] at h1
            rw [hlbl] at h1
            rw [← Option.some_inj.mp h1]
            push_neg at hcond
            by_cases hpos : (0:ℚ) < ratio L (pyLower lbl)
            · exact lt_of_not_le (fun hc => absurd (hcond hpos) (not_lt.mpr hc))
            · exact lt_of_le_of_lt (not_lt.mp hpos) hthr
      | some b =>
        obtain ⟨e, sc⟩ := b
        simp only [fuzzyStep, hlbl]
        rw [if_pos hne]
        obtain ⟨hex, hth, ⟨q0, hq0, hq0e⟩, hall⟩ := hinv
        by_cases hcond : sc < ratio L (pyLower lbl) ∧ thr ≤ ratio L (pyLower lbl)
        · rw [if_pos hcond]
          refine ⟨⟨lbl, hlbl, hne, rfl⟩, hcond.2,
            ⟨p, List.mem_append_right _ (List.mem_singleton_self p), rfl⟩, ?_⟩
          intro q hq lbl2 h1 h2
          rcases List.mem_append.mp hq with h | h
          · exact le_of_lt (lt_of_le_of_lt (hall q h lbl2 h1 h2) hcond.1)
          · rw [List.mem_singleton.mp h] at h1
            rw [hlbl] at h1
            rw [← Option.some_inj.mp h1]
        · rw [if_neg hcond]
          refine ⟨hex, hth, ⟨q0, List.mem_append_left _ hq0, hq0e⟩, ?_⟩
          intro q hq lbl2 h1 h2
          rcases List.mem_append.mp hq with h | h
          · exact hall q h lbl2 h1 h2
          · rw [List.mem_singleton.mp h] at h1
            rw [hlbl] at h1
            rw [← Option.some_inj.mp h1]
            push_neg at hcond
            by_cases hgt : sc < ratio L (pyLower lbl)
            · exact le_of_lt (lt_of_lt_of_le (lt_of_not_le
                (fun hc => absurd (hcond hgt) (not_lt.mpr hc))) hth)
            · exact not_lt.mp hgt
    · push_neg at hne
      cases acc with
      | none =>
        simp only [fuzzyStep, hlbl]
        rw [if_neg (by simp [hne])]
        intro q hq lbl2 h1 h2
        rcases List.mem_append.mp hq with h | h
        · exact hinv q h lbl2 h1 h2
        · rw [List.mem_singleton.mp h] at h1
          rw [hlbl] at h1
          rw [← Option.some_inj.mp h1] at h2
          exact absurd hne h2
      | some b =>
        obtain ⟨e, sc⟩ := b
        simp only [fuzzyStep, hlbl]
        rw [if_neg (by simp [hne])]
        obtain ⟨hex, hth, ⟨q0, hq0, hq0e⟩, hall⟩ := hinv
        refine ⟨hex, hth, ⟨q0, List.mem_append_left _ hq0, hq0e⟩, ?_⟩
        intro q hq lbl2 h1 h2
        rcases List.mem_append.mp hq with h | h
        · exact hall q h lbl2 h1 h2
        · rw [List.mem_singleton.mp h] at h1
          rw [hlbl] at h1
          rw [← Option.some_inj.mp h1] at h2
          exact absurd hne h2

/-- Helper: the whole scan establishes the fuzzy-scan invariant over the
elements scanned. -/
theorem fuzzyFold_inv {ratio : String → String → ℚ} {L : String} {thr : ℚ}
    (hthr : 0 < thr) :
    ∀ (l seen : List (String × UIElement)) (acc : Option (UIElement × ℚ)),
      fuzzyInv ratio L thr seen acc →
      fuzzyInv ratio L thr (seen ++ l) (l.foldl (fuzzyStep ratio L thr) acc) := by
  intro l
  induction l with
  | nil =>
    intro seen acc h
    simpa using h
  | cons p t ih =>
    intro seen acc h
    rw [List.foldl_cons]
    have h2 := ih (seen ++ [p]) (fuzzyStep ratio L thr acc p) (fuzzyStep_inv hthr p h)
    rw [List.append_assoc] at h2
    exact h2

/-- C8: label lookup precedence. When the label index holds a non-empty id
list for the lowercased query, the lookup returns that first id's element
(exact match wins, fuzzy scores never consulted). Only on an exact miss
and with fuzzy enabled does it scan all labeled elements: a returned
element carries a (truthy) label whose similarity score meets the
threshold and is maximal over every labeled cached element, and `none` is
returned exactly when no labeled element's score reaches the threshold;
with fuzzy disabled an exact miss is always a miss. (Stated for positive
thresholds; the code starts `best_score` at 0, so with a non-positive
threshold an element scoring 0 would still never be selected.) -/
theorem label_lookup_precedence (s : CacheState) (ratio : String → String → ℚ)
    (label : String) (threshold : ℚ) (hthr : 0 < threshold) :
    (∀ (fuzzy : Bool) (eid : String) (rest : List String),
      dget s.elementsByLabel (pyLower label) = some (eid :: rest) →
      (getElementByLabel s ratio label fuzzy threshold).2 = dget s.elements eid) ∧
    ((dget s.elementsByLabel (pyLower label) = none ∨
      dget s.elementsByLabel (pyLower label) = some []) →
      (∀ e, (getElementByLabel s ratio label true threshold).2 = some e →
        ∃ lbl, e.label = some lbl ∧ lbl ≠ "" ∧
          threshold ≤ ratio (pyLower label) (pyLower lbl) ∧
          (∃ p ∈ s.elements, p.2 = e) ∧
          (∀ p ∈ s.elements, ∀ lbl2, p.2.label = some lbl2 → lbl2 ≠ "" →
            ratio (pyLower label) (pyLower lbl2) ≤ ratio (pyLower label) (pyLower lbl))) ∧
      ((getElementByLabel s ratio label true threshold).2 = none →
        ∀ p ∈ s.elements, ∀ lbl2, p.2.label = some lbl2 → lbl2 ≠ "" →
          ratio (pyLower label) (pyLower lbl2) < threshold) ∧
      (getElementByLabel s ratio label false threshold).2 = none) := by
  have hbase : fuzzyInv ratio (pyLower label) threshold [] none := by
    intro p hp
    simp at hp
  have hres := fuzzyFold_inv hthr s.elements [] none hbase
  rw [List.nil_append] at hres
  constructor
  · intro fuzzy eid rest hidx
    simp only [getElementByLabel, hidx]
  · intro hmiss
    have hred : ∀ (fz : Bool),
        getElementByLabel s ratio label fz threshold =
        (if fz then
          match s.elements.foldl (fuzzyStep ratio (pyLower label) threshold) none with
          | some (e, _) => ({ s with cacheHits := s.cacheHits + 1 }, some e)
          | none => ({ s with cacheMisses := s.cacheMisses + 1 }, none)
        else ({ s with cacheMisses := s.cacheMisses + 1 }, none)) := by
      intro fz
      rcases hmiss with h | h
      · simp only [getElementByLabel, h]
      · simp only [getElementByLabel, h]
    refine ⟨?_, ?_, ?_⟩
    · intro e he
      rw [hred true, if_pos rfl] at he
      cases hbest : s.elements.foldl (fuzzyStep ratio (pyLower label) threshold) none with
      | none => rw [hbest] at he; simp at he
      | some b =>
        obtain ⟨e0, sc⟩ := b
        rw [hbest] at he hres
        simp only at he
        obtain ⟨⟨lbl, hl, hn, hsc⟩, hth', hmem, hall⟩ := hres
        have he0 : e = e0 := by
          have : some e0 = some e := he
          exact (Option.some_inj.mp this).symm
        refine ⟨lbl, by rw [he0]; exact hl, hn, ?_, ?_, ?_⟩
        · rw [← hsc]; exact hth'
        · rw [he0]; exact hmem
        · intro p hp lbl2 h1 h2
          rw [← hsc]
          exact hall p hp lbl2 h1 h2
    · intro hnone
      rw [hred true, if_pos rfl] at hnone
      cases hbest : s.elements.foldl (fuzzyStep ratio (pyLower label) threshold) none with
      | none =>
        rw [hbest] at hres
        exact hres
      | some b =>
        obtain ⟨e0, sc⟩ := b
        rw [hbest] at hnone
        simp at hnone
    · rw [hred false]
      simp

/-- Witness for C8: a cache holding one button labeled "Submit"; the exact
(case-insensitive) lookup for "Submit" returns that indexed element. -/
theorem label_lookup_precedence_witness :
    (0:ℚ) < 80 ∧
    (getElementByLabel
      (addElement (initCache {})
        (UIElement.mk "btn" .button ⟨0, 0, 10, 10⟩ (some "Submit") none 1 true true false none none))
      (fun _ _ => 0) "Submit" true 80).2 =
      dget (addElement (initCache {})
        (UIElement.mk "btn" .button ⟨0, 0, 10, 10⟩ (some "Submit") none 1 true true false none none)).elements
        "btn" :=
  ⟨by norm_num,
   (label_lookup_precedence
      (addElement (initCache {})
        (UIElement.mk "btn" .button ⟨0, 0, 10, 10⟩ (some "Submit") none 1 true true false none none))
      (fun _ _ => 0) "Submit" 80 (by norm_num)).1 true "btn" [] (by decide)⟩

/-- Helper: `filterMap` preserves length when every image is `some`. -/
theorem filterMap_length_isSome {α β : Type} (f : α → Option β) :
    ∀ l : List α, (∀ a ∈ l, (f a).isSome) → (l.filterMap f).length = l.length := by
  intro l
  induction l with
  | nil => intro _; rfl
  | cons a t ih =>
    intro h
    rw [List.filterMap_cons]
    cases hf : f a with
    | none => exact absurd (h a (List.mem_cons_self a t)) (by simp [hf])
    | some b =>
      rw [List.length_cons, List.length_cons,
        ih (fun x hx => h x (List.mem_cons_of_mem a hx))]

/-- Helper: a key in the key list looks up successfully. -/
theorem dget_isSome_of_mem {κ α : Type} [DecidableEq κ] {d : List (κ × α)} {i : κ}
    (h : i ∈ dkeys d) : (dget d i).isSome := by
  rw [dget, Option.isSome_map']
  rw [List.find?_isSome]
  rcases List.mem_map.mp h with ⟨p, hp, he⟩
  exact ⟨p, hp, by simp [he]⟩

/-- Helper: a successful lookup is an entry of the dict. -/
theorem dget_mem {κ α : Type} [DecidableEq κ] {d : List (κ × α)} {i : κ} {v : α}
    (h : dget d i = some v) : (i, v) ∈ d := by
  rw [dget] at h
  rcases Option.map_eq_some'.mp h with ⟨p, hfind, hv⟩
  have hp : p ∈ d := List.mem_of_find?_eq_some hfind
  have hk : p.1 = i := by
    have hk0 := List.find?_some hfind
    simpa using hk0
  have : p = (i, v) := by
    obtain ⟨p1, p2⟩ := p
    simp only at hk hv
    rw [hk, hv]
  rw [← this]
  exact hp

/-- Helper: overwriting an existing key leaves the key list unchanged. -/
theorem dkeys_dinsert_mem {κ α : Type} [DecidableEq κ] {d : List (κ × α)} {k : κ}
    (v : α) (h : dmem d k = true) : dkeys (dinsert d k v) = dkeys d := by
  rw [dinsert, if_pos h, dkeys, dkeys, List.map_map]
  apply List.map_congr_left
  intro p hp
  by_cases hpk : p.1 = k
  · simp [hpk]
  · simp [hpk]

/-- Helper: the id-keyed dict built from an element list has
duplicate-free keys. -/
theorem dkeys_dictOfElems_nodup (es : List UIElement) :
    (dkeys (dictOfElems es)).Nodup := by
  suffices H : ∀ (l : List UIElement) (d : List (String × UIElement)),
      (dkeys d).Nodup →
      (dkeys (l.foldl (fun d e => dinsert d e.id e) d)).Nodup by
    exact H es [] (by simp [dkeys])
  intro l
  induction l with
  | nil => intro d h; exact h
  | cons e t ih =>
    intro d h
    rw [List.foldl_cons]
    apply ih
    rcases Bool.eq_false_or_eq_true (dmem d e.id) with hm | hm
    · rw [dkeys_dinsert_mem _ hm]
      exact h
    · rw [dinsert_of_not_mem hm, dkeys, List.map_append]
      rw [List.nodup_append]
      refine ⟨h, List.nodup_singleton _, ?_⟩
      intro a ha hb
      rw [List.mem_singleton.mp hb] at ha
      exact dmem_eq_false_iff.mp hm ha

/-- Helper: an entry of `d[k] = v` is an old entry or `(k, v)`. -/
theorem mem_dinsert {κ α : Type} [DecidableEq κ] {d : List (κ × α)} {k : κ}
    {v : α} {p : κ × α} (h : p ∈ dinsert d k v) : p ∈ d ∨ p = (k, v) := by
  rw [dinsert] at h
  split at h
  · rcases List.mem_map.mp h with ⟨q, hq, he⟩
    by_cases hqk : q.1 = k
    · right; rw [← he, if_pos hqk]
    · left; rw [← he, if_neg hqk]; exact hq
  · rcases List.mem_append.mp h with h | h
    · left; exact h
    · right; exact List.mem_singleton.mp h

/-- Helper: in the id-keyed dict every entry's value carries its key as id. -/
theorem dictOfElems_entry_id (es : List UIElement) :
    ∀ p ∈ dictOfElems es, p.2.id = p.1 := by
  suffices H : ∀ (l : List UIElement) (d : List (String × UIElement)),
      (∀ p ∈ d, p.2.id = p.1) →
      ∀ p ∈ l.foldl (fun d e => dinsert d e.id e) d, p.2.id = p.1 by
    exact H es [] (by intro p hp; simp at hp)
  intro l
  induction l with
  | nil => intro d h; exact h
  | cons e t ih =>
    intro d h
    rw [List.foldl_cons]
    apply ih
    intro p hp
    rcases mem_dinsert hp with h2 | h2
    · exact h p h2
    · rw [h2]

/-- Helper: looking up `i` in the id-keyed dict yields an element whose
id is `i`. -/
theorem dget_dictOfElems_id {es : List UIElement} {i : String} {n : UIElement}
    (h : dget (dictOfElems es) i = some n) : n.id = i :=
  dictOfElems_entry_id es (i, n) (dget_mem h)

/-- Helper: projecting ids out of a `filterMap` whose hits carry their key
as id recovers the filtered key list. -/
theorem map_id_filterMap (f : String → Option UIElement)
    (hid : ∀ j e, f j = some e → e.id = j) :
    ∀ l : List String,
      (l.filterMap f).map (·.id) = l.filter (fun j => (f j).isSome) := by
  intro l
  induction l with
  | nil => rfl
  | cons a t ih =>
    rw [List.filterMap_cons, List.filter_cons]
    cases hf : f a with
    | none =>
      simp only [hf]
      rw [if_neg (by simp)]
      exact ih
    | some e =>
      simp only [hf]
      rw [if_pos (by simp)]
      rw [List.map_cons, ih, hid a e hf]

/-- Helper: `List.contains` agrees with membership for strings. -/
theorem contains_iff_mem {l : List String} {i : String} :
    l.contains i = true ↔ i ∈ l := by
  simp [List.contains_iff_exists_mem_beq, beq_iff_eq]


/-- C1: diff completeness of the full update. The diff `update_full`
returns is `_compute_diff` against the pre-replacement cache; writing `O`
for the cached id set and `N` for the new snapshot's id set, its added
count is exactly `|N \ O|` and its removed count exactly `|O \ N|`; the
modified elements' ids are exactly the ids common to `O` and `N` whose
old and new versions differ by `_element_changed` (x, y, width or height
beyond the position tolerance, or label/text, or any
enabled/visible/focused flag); the modified count counts that
duplicate-free id list; and no id falls in more than one of
added/removed/modified. (Hypotheses: the cache's key list is
duplicate-free and each cached entry's value carries its key as id — both
invariants `_add_element` maintains.) -/
theorem full_update_diff (s : CacheState) (ns : ScreenState) (now : Nat)
    (hnd : (dkeys s.elements).Nodup)
    (hwf : ∀ p ∈ s.elements, p.2.id = p.1) :
    (updateFull s ns now).2 = computeDiff s ns ∧
    (computeDiff s ns).totalAdded =
      ((dkeys (dictOfElems ns.elements)).toFinset \ (dkeys s.elements).toFinset).card ∧
    (computeDiff s ns).totalRemoved =
      ((dkeys s.elements).toFinset \ (dkeys (dictOfElems ns.elements)).toFinset).card ∧
    (∀ i : String,
      (i ∈ (diffAdded s ns).map (·.id) ↔
        i ∈ dkeys (dictOfElems ns.elements) ∧ i ∉ dkeys s.elements) ∧
      (i ∈ (diffRemoved s ns).map (·.id) ↔
        i ∈ dkeys s.elements ∧ i ∉ dkeys (dictOfElems ns.elements)) ∧
      (i ∈ (diffModified s ns).map (·.id) ↔
        i ∈ dkeys s.elements ∧ i ∈ dkeys (dictOfElems ns.elements) ∧
        ∃ o n, dget s.elements i = some o ∧
          dget (dictOfElems ns.elements) i = some n ∧
          element_changed s.config.positionTolerance o n = true)) ∧
    (computeDiff s ns).totalModified = ((diffModified s ns).map (·.id)).length ∧
    ((diffModified s ns).map (·.id)).Nodup ∧
    (∀ i : String,
      ¬(i ∈ (diffAdded s ns).map (·.id) ∧ i ∈ (diffRemoved s ns).map (·.id)) ∧
      ¬(i ∈ (diffAdded s ns).map (·.id) ∧ i ∈ (diffModified s ns).map (·.id)) ∧
      ¬(i ∈ (diffRemoved s ns).map (·.id) ∧ i ∈ (diffModified s ns).map (·.id))) := by
  have hnewnd : (dkeys (dictOfElems ns.elements)).Nodup :=
    dkeys_dictOfElems_nodup ns.elements
  -- the three id lists, as filters of the key lists
  have haddIds : (diffAdded s ns).map (·.id) =
      (dkeys (dictOfElems ns.elements)).filter
        (fun i => !((dkeys s.elements).contains i)) := by
    rw [diffAdded, map_id_filterMap _ (fun j e h => dget_dictOfElems_id h)]
    apply List.filter_eq_self.mpr
    intro i hi
    exact dget_isSome_of_mem (List.mem_of_mem_filter hi)
  have hremIds : (diffRemoved s ns).map (·.id) =
      (dkeys s.elements).filter
        (fun i => !((dkeys (dictOfElems ns.elements)).contains i)) := by
    rw [diffRemoved, map_id_filterMap _
      (fun j e h => hwf (j, e) (dget_mem h))]
    apply List.filter_eq_self.mpr
    intro i hi
    exact dget_isSome_of_mem (List.mem_of_mem_filter hi)
  have hmodId : ∀ j e,
      (match dget s.elements j, dget (dictOfElems ns.elements) j with
        | some o, some n =>
          if element_changed s.config.positionTolerance o n then some n else none
        | _, _ => none) = some e → e.id = j := by
    intro j e h
    cases hg1 : dget s.elements j with
    | none =>
      cases hg2 : dget (dictOfElems ns.elements) j <;>
        simp only [hg1, hg2] at h <;> exact absurd h (by simp)
    | some o =>
      cases hg2 : dget (dictOfElems ns.elements) j with
      | none =>
        simp only [hg1, hg2] at h
        exact absurd h (by simp)
      | some n =>
        simp only [hg1, hg2] at h
        by_cases hc : element_changed s.config.positionTolerance o n = true
        · rw [if_pos hc] at h
          rw [← Option.some_inj.mp h]
          exact dget_dictOfElems_id hg2
        · rw [if_neg hc] at h
          exact absurd h (by simp)
  have hmodIds : (diffModified s ns).map (·.id) =
      ((dkeys s.elements).filter
        (fun i => (dkeys (dictOfElems ns.elements)).contains i)).filter
        (fun j => (match dget s.elements j, dget (dictOfElems ns.elements) j with
          | some o, some n =>
            if element_changed s.config.positionTolerance o n then some n else none
          | _, _ => none).isSome) := by
    rw [diffModified, map_id_filterMap _ hmodId]
  -- membership characterizations
  have hmemAdd : ∀ i, i ∈ (diffAdded s ns).map (·.id) ↔
      i ∈ dkeys (dictOfElems ns.elements) ∧ i ∉ dkeys s.elements := by
    intro i
    rw [haddIds, List.mem_filter]
    constructor
    · rintro ⟨h1, h2⟩
      refine ⟨h1, fun hc => ?_⟩
      rw [Bool.not_eq_true', ← Bool.not_eq_true] at h2
      exact h2 (contains_iff_mem.mpr hc)
    · rintro ⟨h1, h2⟩
      refine ⟨h1, ?_⟩
      rw [Bool.not_eq_true', ← Bool.not_eq_true]
      exact fun hc => h2 (contains_iff_mem.mp hc)
  have hmemRem : ∀ i, i ∈ (diffRemoved s ns).map (·.id) ↔
      i ∈ dkeys s.elements ∧ i ∉ dkeys (dictOfElems ns.elements) := by
    intro i
    rw [hremIds, List.mem_filter]
    constructor
    · rintro ⟨h1, h2⟩
      refine ⟨h1, fun hc => ?_⟩
      rw [Bool.not_eq_true', ← Bool.not_eq_true] at h2
      exact h2 (contains_iff_mem.mpr hc)
    · rintro ⟨h1, h2⟩
      refine ⟨h1, ?_⟩
      rw [Bool.not_eq_true', ← Bool.not_eq_true]
      exact fun hc => h2 (contains_iff_mem.mp hc)
  have hmemMod : ∀ i, i ∈ (diffModified s ns).map (·.id) ↔
      i ∈ dkeys s.elements ∧ i ∈ dkeys (dictOfElems ns.elements) ∧
      ∃ o n, dget s.elements i = some o ∧
        dget (dictOfElems ns.elements) i = some n ∧
        element_changed s.config.positionTolerance o n = true := by
    intro i
    rw [hmodIds, List.mem_filter, List.mem_filter]
    constructor
    · rintro ⟨⟨h1, h2⟩, h3⟩
      refine ⟨h1, contains_iff_mem.mp h2, ?_⟩
      cases hg1 : dget s.elements i with
      | none =>
        cases hg2 : dget (dictOfElems ns.elements) i <;>
          simp only [hg1, hg2, Option.isSome_none] at h3 <;>
          exact absurd h3 (by simp)
      | some o =>
        cases hg2 : dget (dictOfElems ns.elements) i with
        | none =>
          simp only [hg1, hg2, Option.isSome_none] at h3
          exact absurd h3 (by simp)
        | some n =>
          simp only [hg1, hg2] at h3
          by_cases hc : element_changed s.config.positionTolerance o n = true
          · exact ⟨o, n, rfl, rfl, hc⟩
          · rw [if_neg hc] at h3; simp at h3
    · rintro ⟨h1, h2, o, n, hg1, hg2, hc⟩
      refine ⟨⟨h1, contains_iff_mem.mpr h2⟩, ?_⟩
      simp only [hg1, hg2]
      rw [if_pos hc]
      simp
  -- counts
  have hTA : (computeDiff s ns).totalAdded = (diffAdded s ns).length := rfl
  have hTR : (computeDiff s ns).totalRemoved = (diffRemoved s ns).length := rfl
  have hTM : (computeDiff s ns).totalModified = (diffModified s ns).length := rfl
  have hcardAdd : (diffAdded s ns).length =
      ((dkeys (dictOfElems ns.elements)).toFinset \ (dkeys s.elements).toFinset).card := by
    have h1 : (diffAdded s ns).length = ((diffAdded s ns).map (·.id)).length :=
      (List.length_map _ _).symm
    rw [h1, haddIds]
    have h2 : ((dkeys (dictOfElems ns.elements)).filter
        (fun i => !((dkeys s.elements).contains i))).Nodup := hnewnd.filter _
    rw [← List.toFinset_card_of_nodup h2, List.toFinset_filter,
      Finset.sdiff_eq_filter]
    apply congrArg
    apply Finset.filter_congr
    intro i hi
    rw [List.mem_toFinset]
    constructor
    · intro hb hc
      rw [Bool.not_eq_true', ← Bool.not_eq_true] at hb
      exact hb (contains_iff_mem.mpr hc)
    · intro hc
      rw [Bool.not_eq_true', ← Bool.not_eq_true]
      exact fun hb => hc (contains_iff_mem.mp hb)
  have hcardRem : (diffRemoved s ns).length =
      ((dkeys s.elements).toFinset \ (dkeys (dictOfElems ns.elements)).toFinset).card := by
    have h1 : (diffRemoved s ns).length = ((diffRemoved s ns).map (·.id)).length :=
      (List.length_map _ _).symm
    rw [h1, hremIds]
    have h2 : ((dkeys s.elements).filter
        (fun i => !((dkeys (dictOfElems ns.elements)).contains i))).Nodup := hnd.filter _
    rw [← List.toFinset_card_of_nodup h2, List.toFinset_filter,
      Finset.sdiff_eq_filter]
    apply congrArg
    apply Finset.filter_congr
    intro i hi
    rw [List.mem_toFinset]
    constructor
    · intro hb hc
      rw [Bool.not_eq_true', ← Bool.not_eq_true] at hb
      exact hb (contains_iff_mem.mpr hc)
    · intro hc
      rw [Bool.not_eq_true', ← Bool.not_eq_true]
      exact fun hb => hc (contains_iff_mem.mp hb)
  have hfst : (updateFull s ns now).2 = computeDiff s ns := by
    simp only [updateFull]
    split <;> rfl
  refine ⟨hfst, by rw [hTA, hcardAdd], by rw [hTR, hcardRem],
    (fun i => ⟨hmemAdd i, hmemRem i, hmemMod i⟩), ?_, ?_, ?_⟩
  · rw [hTM, List.length_map]
  · rw [hmodIds]
    exact (hnd.filter _).filter _
  · intro i
    refine ⟨?_, ?_, ?_⟩
    · rintro ⟨ha, hr⟩
      exact ((hmemAdd i).mp ha).2 ((hmemRem i).mp hr).1
    · rintro ⟨ha, hm⟩
      exact ((hmemAdd i).mp ha).2 ((hmemMod i).mp hm).1
    · rintro ⟨hr, hm⟩
      exact ((hmemRem i).mp hr).2 ((hmemMod i).mp hm).2.1

/-- Witness for C1: a cache holding the "OK" button at (10,10,50,20) and a
snapshot with the same id — zero additions. -/
theorem full_update_diff_witness :
    ((dkeys (addElement (initCache {})
        (UIElement.mk "ok1" .button ⟨10, 10, 50, 20⟩ (some "OK") none 1 true true false none none)).elements).Nodup ∧
     (∀ p ∈ (addElement (initCache {})
        (UIElement.mk "ok1" .button ⟨10, 10, 50, 20⟩ (some "OK") none 1 true true false none none)).elements,
        p.2.id = p.1)) ∧
    (computeDiff
      (addElement (initCache {})
        (UIElement.mk "ok1" .button ⟨10, 10, 50, 20⟩ (some "OK") none 1 true true false none none))
      (ScreenState.mk 3
        [UIElement.mk "ok1" .button ⟨10, 40, 50, 20⟩ (some "OK") none 1 true true false none none]
        [] none (1920, 1080))).totalAdded =
      ((dkeys (dictOfElems
          [UIElement.mk "ok1" .button ⟨10, 40, 50, 20⟩ (some "OK") none 1 true true false none none])).toFinset \
        (dkeys (addElement (initCache {})
          (UIElement.mk "ok1" .button ⟨10, 10, 50, 20⟩ (some "OK") none 1 true true false none none)).elements).toFinset).card :=
  ⟨⟨by decide, by decide⟩,
   (full_update_diff
      (addElement (initCache {})
        (UIElement.mk "ok1" .button ⟨10, 10, 50, 20⟩ (some "OK") none 1 true true false none none))
      (ScreenState.mk 3
        [UIElement.mk "ok1" .button ⟨10, 40, 50, 20⟩ (some "OK") none 1 true true false none none]
        [] none (1920, 1080))
      0 (by decide) (by decide)).2.1⟩
